import Mathlib

/-!
Verification development for the semantic indexing and query engine of the
repository (embedding generation with caching/batching/fallback, vector
similarity search, clustering, drift analysis, question routing).

The Python source is shallowly embedded: floating point scalar values are
modelled as real numbers, the mutable embedding cache is explicit state, the
fallible embedding provider is a record of `Option`-valued call behaviours,
and the md5 cache key over (text, context_type, model) is modelled as the
injective pair (text, context_type) with the model fixed by the configuration.
-/

/-- Python `str.lower()`, modelled characterwise (the source strings are
ASCII); defined directly on the character data so that it evaluates in the
kernel. -/
def strLower (s : String) : String := String.mk (s.data.map Char.toLower)

/-- Substring test: Python `pat in s`. -/
def strContains (s pat : String) : Bool :=
  s.toList.tails.any (fun t => pat.toList.isPrefixOf t)

/-- From `embedding_manager.EmbeddingManager._preprocess_code`: strip each line,
drop blank lines and lines starting with a comment marker, join with spaces,
truncate to 1000 characters. -/
def preprocessCode (code : String) : String :=
  let lines := code.splitOn "\n"
  let processed_lines := (lines.map String.trim).filter
    (fun l => (!(l == "")) && (!(l.startsWith "#")) && (!(l.startsWith "//")))
  let processed_code := String.intercalate " " processed_lines
  if 1000 < processed_code.length then processed_code.take 1000 else processed_code

/-- From `embedding_manager.EmbeddingManager._preprocess_commit_message`: first
line as title, heuristic category keywords by substring match on the lowered
message, truncation to 500 characters. -/
def preprocessCommitMessage (message : String) : String :=
  let lines := message.splitOn "\n"
  let title := lines.headI
  let ml := strLower message
  let keywords :=
    (if strContains ml "feat" || strContains ml "feature" then ["feature"] else []) ++
    (if strContains ml "fix" || strContains ml "bug" then ["bugfix"] else []) ++
    (if strContains ml "refactor" then ["refactoring"] else []) ++
    (if strContains ml "test" then ["testing"] else []) ++
    (if strContains ml "doc" then ["documentation"] else [])
  let enhanced := title ++ " " ++ String.intercalate " " keywords ++ " " ++ message
  enhanced.take 500

/-- From `embedding_manager.EmbeddingManager._preprocess_by_type` (and the
context dispatch at the top of `generate_embedding`). -/
def preprocessByType (text ctx : String) : String :=
  if ctx == "code" then preprocessCode text
  else if ctx == "commit" then preprocessCommitMessage text
  else text

/-- Context prefix added inside the OpenAI branch of `generate_embedding` and
`generate_batch_embeddings`. -/
def contextPrefix (ctx text : String) : String :=
  if ctx == "code" then "Code: " ++ text
  else if ctx == "commit" then "Commit message: " ++ text
  else text

/-- Behaviour of the OpenAI embedding provider, as observed by the manager: the
first `embeddings.create` attempt, the retry attempt, and the batch call.
`none` models a raised provider exception. A fixed record makes the provider
deterministic per attempt, matching the specification's purity assumption. -/
structure Provider where
  attempt1 : String → Option (List ℝ)
  attempt2 : String → Option (List ℝ)
  batch : List String → Option (List (List ℝ))

/-- The fixed per-instance model configuration: `embedding_dim`, and whether
`model_type == 'openai'` (the only type whose vectors are truncated to 1536). -/
structure EmbedConfig where
  dim : ℕ
  isSmall : Bool

/-- Dimension reduction applied to a single returned embedding
(`if self.model_type == 'openai' and len(embedding) > 1536`). -/
def truncDim (cfg : EmbedConfig) (e : List ℝ) : List ℝ :=
  if cfg.isSmall ∧ 1536 < e.length then e.take 1536 else e

/-- Mutable state of an `EmbeddingManager`: the embedding cache, keyed by
(text, context_type); the model component of the md5 key is fixed by the
configuration. -/
structure EMState where
  cache : List ((String × String) × List ℝ)

/-- Outcome of one embed-with-retry interaction with the provider: the vector
obtained, the number of provider invocations, and the backoff waits (seconds)
performed. -/
structure GenOutcome where
  emb : List ℝ
  calls : ℕ
  sleeps : List ℕ

/-- The try/except ladder of the OpenAI branch of `generate_embedding`: on
failure of the first call, sleep 1 second and retry once with the input
truncated to 8000 characters; if that also fails, return the all-zero vector
of the configured dimension. Never propagates a provider failure. -/
def providerEmbed (P : Provider) (cfg : EmbedConfig) (text : String) : GenOutcome :=
  match P.attempt1 text with
  | some e => ⟨truncDim cfg e, 1, []⟩
  | none =>
    match P.attempt2 (text.take 8000) with
    | some e => ⟨truncDim cfg e, 2, [1]⟩
    | none => ⟨List.replicate cfg.dim 0, 2, [1]⟩

/-- The value `generate_embedding` computes on a cache miss: preprocessing by
context type, context prefix, then the provider interaction with retry. -/
def embedValue (P : Provider) (cfg : EmbedConfig) (text ctx : String) : GenOutcome :=
  providerEmbed P cfg (contextPrefix ctx (preprocessByType text ctx))

/-- Result of `generate_embedding`: the returned vector, the updated manager
state, and the observable provider interaction counts. -/
structure GenResult where
  emb : List ℝ
  state : EMState
  calls : ℕ
  sleeps : List ℕ

/-- From `embedding_manager.EmbeddingManager.generate_embedding` (OpenAI
branch): cache lookup on the raw (text, context_type) key first — a hit
returns immediately with no provider call; on a miss the value is computed
via `embedValue` and stored in the cache. -/
def generate_embedding (P : Provider) (cfg : EmbedConfig) (text ctx : String)
    (st : EMState) : GenResult :=
  match st.cache.lookup (text, ctx) with
  | some e => ⟨e, st, 0, []⟩
  | none =>
    let o := embedValue P cfg text ctx
    ⟨o.emb, ⟨((text, ctx), o.emb) :: st.cache⟩, o.calls, o.sleeps⟩

/-- Manager states reachable from the empty cache by `generate_embedding`
calls (the only writer of the cache in the source). -/
inductive Reachable (P : Provider) (cfg : EmbedConfig) : EMState → Prop
  | nil : Reachable P cfg ⟨[]⟩
  | step (t c : String) {st : EMState} :
      Reachable P cfg st → Reachable P cfg (generate_embedding P cfg t c st).state

/-- Every cache entry of a reachable state stores exactly the value a fresh
computation would produce. -/
def CacheConsistent (P : Provider) (cfg : EmbedConfig) (st : EMState) : Prop :=
  ∀ t c e, st.cache.lookup (t, c) = some e → e = (embedValue P cfg t c).emb

theorem cacheConsistent_of_reachable {P : Provider} {cfg : EmbedConfig} {st : EMState}
    (h : Reachable P cfg st) : CacheConsistent P cfg st := by
  induction h with
  | nil => intro t c e he; simp [List.lookup] at he
  | step t₀ c₀ _ ih =>
    intro t c e he
    unfold generate_embedding at he
    rcases hl : (List.lookup (t₀, c₀) _) with _ | e₀
    · rw [hl] at he
      simp only [List.lookup] at he
      rcases hbe : (((t, c) : String × String) == (t₀, c₀)) with _ | _
      · rw [hbe] at he
        simp at he
        exact ih t c e he
      · rw [hbe] at he
        simp at he
        have h2 : (t, c) = (t₀, c₀) := eq_of_beq hbe
        injection h2 with ht hc
        subst ht; subst hc
        exact he.symm
    · rw [hl] at he
      exact ih t c e he

theorem generate_embedding_emb_of_reachable (P : Provider) (cfg : EmbedConfig)
    (t c : String) {st : EMState} (h : Reachable P cfg st) :
    (generate_embedding P cfg t c st).emb = (embedValue P cfg t c).emb := by
  have hcc := cacheConsistent_of_reachable h
  unfold generate_embedding
  rcases hl : st.cache.lookup (t, c) with _ | e
  · rfl
  · exact hcc t c e hl

/-- Fuel-based worker for `chunkList`; the fuel is an upper bound on the list
length, making the recursion structural (and hence reducible by `rfl`). -/
def chunkListF (n : ℕ) : ℕ → List α → List (List α)
  | _, [] => []
  | 0, _ :: _ => []
  | fuel + 1, x :: xs => (x :: xs).take n :: chunkListF n fuel (xs.drop (n - 1))

/-- Chunking of a list into consecutive blocks of `n` elements (Python
`range(0, len(xs), n)` slicing in `generate_batch_embeddings`; the source
fixes `n = 100`). -/
def chunkList (n : ℕ) (l : List α) : List (List α) := chunkListF n l.length l

theorem chunkListF_congr (n : ℕ) : ∀ (f₁ f₂ : ℕ) (l : List α),
    l.length ≤ f₁ → l.length ≤ f₂ → chunkListF n f₁ l = chunkListF n f₂ l := by
  intro f₁
  induction f₁ with
  | zero =>
    intro f₂ l h₁ _
    match l with
    | [] => cases f₂ <;> rfl
    | x :: xs => simp at h₁
  | succ f ih =>
    intro f₂ l h₁ h₂
    match l with
    | [] => cases f₂ <;> rfl
    | x :: xs =>
      match f₂ with
      | 0 => simp at h₂
      | g + 1 =>
        simp only [chunkListF]
        congr 1
        apply ih
        · simp only [List.length_drop]
          simp only [List.length_cons] at h₁
          omega
        · simp only [List.length_drop]
          simp only [List.length_cons] at h₂
          omega

theorem chunkList_nil (n : ℕ) : chunkList n ([] : List α) = [] := rfl

theorem chunkList_cons (n : ℕ) (x : α) (xs : List α) :
    chunkList n (x :: xs) = (x :: xs).take n :: chunkList n (xs.drop (n - 1)) := by
  unfold chunkList
  simp only [List.length_cons, chunkListF]
  congr 1
  apply chunkListF_congr
  · simp only [List.length_drop]; omega
  · exact Nat.le_refl _

/-- Collects the results of the per-chunk provider calls; `none` models the
exception that aborts the chunk loop in the source. -/
def allSome : List (Option β) → Option (List β)
  | [] => some []
  | none :: _ => none
  | some x :: os =>
    match allSome os with
    | some xs => some (x :: xs)
    | none => none

/-- Per-chunk dimension reduction of `generate_batch_embeddings`: the chunk is
truncated when the model is `'openai'`, the chunk is nonempty and its first
embedding is longer than 1536. -/
def truncChunk (cfg : EmbedConfig) (es : List (List ℝ)) : List (List ℝ) :=
  if cfg.isSmall ∧ es.isEmpty = false ∧ 1536 < es.headI.length then es.map (List.take 1536) else es

/-- Preprocessing applied to each text in the batch path: context
preprocessing, context prefix, truncation to 8000 characters. -/
def procBatchText (t ctx : String) : String :=
  (contextPrefix ctx (preprocessByType t ctx)).take 8000

/-- Result of `generate_batch_embeddings`: the vectors, the updated manager
state and the raw texts that were routed through per-item
`generate_embedding` calls. -/
structure BatchResult where
  embs : List (List ℝ)
  state : EMState
  singleCalls : List String

/-- The fallback list comprehension
`[self.generate_embedding(text, context_type) for text in texts]`, threading
the shared cache state left to right. -/
def fallbackAll (P : Provider) (cfg : EmbedConfig) (ctx : String) :
    List String → EMState → BatchResult
  | [], st => ⟨[], st, []⟩
  | t :: ts, st =>
    let r := generate_embedding P cfg t ctx st
    let rest := fallbackAll P cfg ctx ts r.state
    ⟨r.emb :: rest.embs, rest.state, t :: rest.singleCalls⟩

/-- From `embedding_manager.EmbeddingManager.generate_batch_embeddings`
(OpenAI branch): every text is preprocessed, the processed list is cut into
chunks of 100, one provider batch call is issued per chunk and the results are
concatenated. The single try/except wraps the whole chunk loop, so any chunk
failure discards all partial results and recomputes every text through
per-item `generate_embedding` calls. -/
def generate_batch_embeddings (P : Provider) (cfg : EmbedConfig)
    (texts : List String) (ctx : String) (st : EMState) : BatchResult :=
  let processed := texts.map (procBatchText · ctx)
  let chunks := chunkList 100 processed
  match allSome (chunks.map P.batch) with
  | some results => ⟨(results.map (truncChunk cfg)).flatten, st, []⟩
  | none => fallbackAll P cfg ctx texts st

/-- Modelled from the claim (and the spec sentence it quotes): on a chunk
failure, fall back to per-item `generate_embedding` calls for just that
chunk, keeping the results already obtained for the other chunks. This is
the behaviour the claim asserts, written out to be compared with the source
function above. -/
def generate_batch_embeddings_claim_go (P : Provider) (cfg : EmbedConfig) (ctx : String) :
    List (List String × List String) → EMState → BatchResult
  | [], st => ⟨[], st, []⟩
  | (proc, raw) :: rest, st =>
    match P.batch proc with
    | some es =>
      let r := generate_batch_embeddings_claim_go P cfg ctx rest st
      ⟨truncChunk cfg es ++ r.embs, r.state, r.singleCalls⟩
    | none =>
      let f := fallbackAll P cfg ctx raw st
      let r := generate_batch_embeddings_claim_go P cfg ctx rest f.state
      ⟨f.embs ++ r.embs, r.state, f.singleCalls ++ r.singleCalls⟩

/-- Modelled from the claim: chunk-level failure isolation for
`generate_batch_embeddings` (see `generate_batch_embeddings_claim_go`). -/
def generate_batch_embeddings_claim (P : Provider) (cfg : EmbedConfig)
    (texts : List String) (ctx : String) (st : EMState) : BatchResult :=
  let processed := texts.map (procBatchText · ctx)
  generate_batch_embeddings_claim_go P cfg ctx
    ((chunkList 100 processed).zip (chunkList 100 texts)) st

theorem chunkList_flatten (n : ℕ) (hn : 1 ≤ n) (l : List α) :
    (chunkList n l).flatten = l := by
  suffices h : ∀ (k : ℕ) (l : List α), l.length ≤ k → (chunkList n l).flatten = l from
    h l.length l (Nat.le_refl _)
  intro k
  induction k with
  | zero =>
    intro l hl
    match l with
    | [] => simp [chunkList_nil]
    | x :: xs => simp at hl
  | succ k ih =>
    intro l hl
    match l with
    | [] => simp [chunkList_nil]
    | x :: xs =>
      rw [chunkList_cons]
      simp only [List.flatten_cons]
      rw [ih (xs.drop (n - 1)) ?_]
      · have htake : (x :: xs).take n = x :: xs.take (n - 1) := by
          match n, hn with
          | m + 1, _ => simp [List.take_cons]
        rw [htake]
        simp [List.take_append_drop]
      · simp only [List.length_drop]
        simp only [List.length_cons] at hl
        omega

theorem allSome_map_some (g : α → β) (l : List α) :
    allSome (l.map (fun x => some (g x))) = some (l.map g) := by
  induction l with
  | nil => rfl
  | cons x xs ih =>
    simp only [List.map_cons, allSome, ih]

theorem allSome_forall2 : ∀ {os : List (Option β)} {xs : List β},
    allSome os = some xs → List.Forall₂ (fun o x => o = some x) os xs := by
  intro os
  induction os with
  | nil =>
    intro xs h
    simp only [allSome, Option.some.injEq] at h
    subst h
    exact List.Forall₂.nil
  | cons o os ih =>
    intro xs h
    match o with
    | none => simp [allSome] at h
    | some v =>
      rw [allSome] at h
      match ho : allSome os with
      | some vs =>
        rw [ho] at h
        simp only [Option.some.injEq] at h
        subst h
        exact List.Forall₂.cons rfl (ih ho)
      | none => rw [ho] at h; simp at h

theorem allSome_eq_none_of_mem {os : List (Option β)} (h : none ∈ os) :
    allSome os = none := by
  induction os with
  | nil => simp at h
  | cons o os ih =>
    match o with
    | none => rfl
    | some v =>
      have h2 : none ∈ os := by
        rcases List.mem_cons.mp h with h1 | h2
        · exact absurd h1 (by simp)
        · exact h2
      rw [allSome, ih h2]

theorem truncChunk_length (cfg : EmbedConfig) (es : List (List ℝ)) :
    (truncChunk cfg es).length = es.length := by
  unfold truncChunk
  split <;> simp

theorem truncChunk_of_not_small {cfg : EmbedConfig} (h : cfg.isSmall = false)
    (es : List (List ℝ)) : truncChunk cfg es = es := by
  unfold truncChunk
  rw [h]
  simp

theorem fallbackAll_spec (P : Provider) (cfg : EmbedConfig) (ctx : String) :
    ∀ (ts : List String) (st : EMState), Reachable P cfg st →
    (fallbackAll P cfg ctx ts st).embs = ts.map (fun t => (embedValue P cfg t ctx).emb) ∧
    (fallbackAll P cfg ctx ts st).singleCalls = ts ∧
    Reachable P cfg (fallbackAll P cfg ctx ts st).state := by
  intro ts
  induction ts with
  | nil => intro st h; exact ⟨rfl, rfl, h⟩
  | cons t ts ih =>
    intro st h
    have hstep : Reachable P cfg (generate_embedding P cfg t ctx st).state :=
      Reachable.step t ctx h
    obtain ⟨h1, h2, h3⟩ := ih (generate_embedding P cfg t ctx st).state hstep
    refine ⟨?_, ?_, h3⟩
    · simp only [fallbackAll, List.map_cons]
      rw [h1, generate_embedding_emb_of_reachable P cfg t ctx h]
    · simp only [fallbackAll]
      rw [h2]

theorem batch_success_sum_length {P : Provider}
    (hlen : ∀ b es, P.batch b = some es → es.length = b.length) (cfg : EmbedConfig) :
    ∀ {chunks : List (List String)} {results : List (List (List ℝ))},
    List.Forall₂ (fun c r => P.batch c = some r) chunks results →
    ((results.map (truncChunk cfg)).map List.length).sum = (chunks.map List.length).sum := by
  intro chunks results h
  induction h with
  | nil => rfl
  | cons hcr _ ih =>
    simp only [List.map_cons, List.sum_cons, ih, truncChunk_length]
    rw [hlen _ _ hcr]

/-- C1 (amended): `generate_batch_embeddings` returns exactly one vector per
input text, in the original input order (for a provider answering each chunk
with one embedding per item); but on any chunk failure the code catches the
exception outside the whole chunk loop, discards every partial chunk result
and recomputes the entire batch via per-item `generate_embedding` calls, one
for every input text. -/
theorem generate_batch_embeddings_count_order_fallback (P : Provider)
    (cfg : EmbedConfig) (texts : List String) (ctx : String) (st : EMState)
    (hst : Reachable P cfg st)
    (hlen : ∀ b es, P.batch b = some es → es.length = b.length) :
    (generate_batch_embeddings P cfg texts ctx st).embs.length = texts.length ∧
    (∀ f : String → List ℝ, (∀ b, P.batch b = some (b.map f)) → cfg.isSmall = false →
      (generate_batch_embeddings P cfg texts ctx st).embs
        = texts.map (fun t => f (procBatchText t ctx))) ∧
    ((∃ c ∈ chunkList 100 (texts.map (procBatchText · ctx)), P.batch c = none) →
      (generate_batch_embeddings P cfg texts ctx st).embs
          = texts.map (fun t => (embedValue P cfg t ctx).emb) ∧
        (generate_batch_embeddings P cfg texts ctx st).singleCalls = texts) := by
  refine ⟨?_, ?_, ?_⟩
  · unfold generate_batch_embeddings
    dsimp only
    split
    · next results heq =>
      have hf2 := allSome_forall2 heq
      have hf2c : List.Forall₂ (fun c r => P.batch c = some r)
          (chunkList 100 (texts.map (procBatchText · ctx))) results :=
        List.forall₂_map_left_iff.mp hf2
      have hsum := batch_success_sum_length hlen cfg hf2c
      simp only [List.length_flatten]
      rw [hsum]
      have hjoin := chunkList_flatten 100 (by norm_num) (texts.map (procBatchText · ctx))
      have := congrArg List.length hjoin
      rw [List.length_flatten] at this
      rw [this, List.length_map]
    · next heq =>
      obtain ⟨h1, _, _⟩ := fallbackAll_spec P cfg ctx texts st hst
      rw [h1, List.length_map]
  · intro f hpw hsmall
    unfold generate_batch_embeddings
    dsimp only
    have hmap : (chunkList 100 (texts.map (procBatchText · ctx))).map P.batch
        = (chunkList 100 (texts.map (procBatchText · ctx))).map
            (fun b => some (List.map f b)) :=
      List.map_congr_left (fun b _ => hpw b)
    rw [hmap, allSome_map_some (List.map f)]
    dsimp only
    have htr : ((chunkList 100 (texts.map (procBatchText · ctx))).map (List.map f)).map
        (truncChunk cfg)
        = (chunkList 100 (texts.map (procBatchText · ctx))).map (List.map f) := by
      rw [List.map_congr_left (fun es _ => truncChunk_of_not_small hsmall es)]
      exact List.map_id _
    rw [htr, ← List.map_flatten, chunkList_flatten 100 (by norm_num), List.map_map]
    rfl
  · intro hfail
    obtain ⟨c, hc, hcnone⟩ := hfail
    have hnone : none ∈ (chunkList 100 (texts.map (procBatchText · ctx))).map P.batch :=
      List.mem_map.mpr ⟨c, hc, hcnone⟩
    unfold generate_batch_embeddings
    dsimp only
    rw [allSome_eq_none_of_mem hnone]
    dsimp only
    obtain ⟨h1, h2, _⟩ := fallbackAll_spec P cfg ctx texts st hst
    exact ⟨h1, h2⟩

def batchPointwiseProvider : Provider :=
  { attempt1 := fun _ => some [2]
    attempt2 := fun _ => some [2]
    batch := fun b => some (b.map (fun _ => [1])) }

theorem generate_batch_embeddings_count_order_fallback_witness :
    (generate_batch_embeddings batchPointwiseProvider ⟨1, false⟩ ["a", "b"] "general"
        ⟨[]⟩).embs = [[1], [1]] := by
  have hlen : ∀ b es, batchPointwiseProvider.batch b = some es → es.length = b.length := by
    intro b es hbe
    injection hbe with hbe
    rw [← hbe, List.length_map]
  have h := (generate_batch_embeddings_count_order_fallback batchPointwiseProvider ⟨1, false⟩
      ["a", "b"] "general" ⟨[]⟩ Reachable.nil hlen).2.1 (fun _ => [1]) (fun _ => rfl) rfl
  exact h.trans rfl

def chunkFailProvider : Provider :=
  { attempt1 := fun _ => some [2]
    attempt2 := fun _ => some [2]
    batch := fun b => if b.length = 1 then none else some (b.map (fun _ => [1])) }

def manyTexts : List String := List.replicate 100 "a" ++ ["b"]

/-- C1 counterexample: with 101 texts (two chunks) and a provider that fails
only on the second chunk, the source recomputes all 101 items through
per-item `generate_embedding` calls and discards the first chunk's batch
results, while the claimed behaviour
(`generate_batch_embeddings_claim`) keeps the 100 results of the successful
chunk and recomputes only the one item of the failed chunk; the two disagree
on this input. -/
theorem generate_batch_embeddings_claim_counterexample :
    (generate_batch_embeddings chunkFailProvider ⟨1, false⟩ manyTexts "general"
        ⟨[]⟩).singleCalls = manyTexts ∧
    (generate_batch_embeddings_claim chunkFailProvider ⟨1, false⟩ manyTexts "general"
        ⟨[]⟩).singleCalls = ["b"] ∧
    (generate_batch_embeddings chunkFailProvider ⟨1, false⟩ manyTexts "general"
        ⟨[]⟩).embs
      ≠ (generate_batch_embeddings_claim chunkFailProvider ⟨1, false⟩ manyTexts "general"
        ⟨[]⟩).embs := by
  refine ⟨rfl, rfl, ?_⟩
  intro h
  have h0 : (2 : ℝ) = 1 := by
    have e1 : (((generate_batch_embeddings chunkFailProvider ⟨1, false⟩ manyTexts "general"
        ⟨[]⟩).embs.getD 0 []).getD 0 0 : ℝ) = 2 := rfl
    have e2 : (((generate_batch_embeddings_claim chunkFailProvider ⟨1, false⟩ manyTexts
        "general" ⟨[]⟩).embs.getD 0 []).getD 0 0 : ℝ) = 1 := rfl
    rw [← e1, ← e2, h]
  norm_num at h0

theorem lookup_cons_self {k : String × String} {v : List ℝ}
    {l : List ((String × String) × List ℝ)} : List.lookup k ((k, v) :: l) = some v := by
  simp [List.lookup]

theorem generate_embedding_hit {P : Provider} {cfg : EmbedConfig} {t c : String}
    {st : EMState} {e : List ℝ} (h : st.cache.lookup (t, c) = some e) :
    generate_embedding P cfg t c st = ⟨e, st, 0, []⟩ := by
  unfold generate_embedding
  rw [h]

theorem generate_embedding_miss {P : Provider} {cfg : EmbedConfig} {t c : String}
    {st : EMState} (h : st.cache.lookup (t, c) = none) :
    generate_embedding P cfg t c st =
      ⟨(embedValue P cfg t c).emb,
        ⟨((t, c), (embedValue P cfg t c).emb) :: st.cache⟩,
        (embedValue P cfg t c).calls, (embedValue P cfg t c).sleeps⟩ := by
  unfold generate_embedding
  rw [h]

/-- C2: the cache is transparent. In every state reachable from the empty
cache, `generate_embedding` returns exactly the value a fresh provider
computation yields, so the returned vector also coincides with the one a
cleared cache would produce; the cache is an optimization, never a
correctness dependency. -/
theorem generate_embedding_cache_transparent (P : Provider) (cfg : EmbedConfig)
    (t c : String) {st : EMState} (hst : Reachable P cfg st) :
    (generate_embedding P cfg t c st).emb = (embedValue P cfg t c).emb ∧
    (generate_embedding P cfg t c st).emb = (generate_embedding P cfg t c ⟨[]⟩).emb := by
  have h1 := generate_embedding_emb_of_reachable P cfg t c hst
  have h2 := generate_embedding_emb_of_reachable P cfg t c
    (Reachable.nil : Reachable P cfg ⟨[]⟩)
  exact ⟨h1, h1.trans h2.symm⟩

def constProvider : Provider :=
  { attempt1 := fun _ => some [7]
    attempt2 := fun _ => some [7]
    batch := fun _ => none }

theorem generate_embedding_cache_transparent_witness :
    (generate_embedding constProvider ⟨1, false⟩ "x" "general"
        (generate_embedding constProvider ⟨1, false⟩ "x" "general" ⟨[]⟩).state).emb
      = [(7 : ℝ)] := by
  have h := (generate_embedding_cache_transparent constProvider ⟨1, false⟩ "x" "general"
      (Reachable.step "x" "general" Reachable.nil)).1
  exact h.trans rfl

/-- C4: determinism via the cache. A second identical call returns the same
vector with zero provider invocations; and whenever the key is already
cached, the call performs no provider invocation, no backoff wait and no
state change — the lookup precedes preprocessing and the provider call, and
a hit returns immediately. -/
theorem generate_embedding_second_call_cached (P : Provider) (cfg : EmbedConfig)
    (t c : String) (st : EMState) :
    ((generate_embedding P cfg t c (generate_embedding P cfg t c st).state).emb
        = (generate_embedding P cfg t c st).emb ∧
      (generate_embedding P cfg t c (generate_embedding P cfg t c st).state).calls = 0 ∧
      (generate_embedding P cfg t c (generate_embedding P cfg t c st).state).sleeps = []) ∧
    (∀ e, st.cache.lookup (t, c) = some e →
      (generate_embedding P cfg t c st).calls = 0 ∧
      (generate_embedding P cfg t c st).emb = e ∧
      (generate_embedding P cfg t c st).state = st ∧
      (generate_embedding P cfg t c st).sleeps = []) := by
  constructor
  · rcases hl : st.cache.lookup (t, c) with _ | e
    · rw [generate_embedding_miss hl]
      rw [@generate_embedding_hit P cfg t c
        ⟨((t, c), (embedValue P cfg t c).emb) :: st.cache⟩
        ((embedValue P cfg t c).emb) lookup_cons_self]
      exact ⟨rfl, rfl, rfl⟩
    · rw [generate_embedding_hit hl, generate_embedding_hit hl]
      exact ⟨rfl, rfl, rfl⟩
  · intro e he
    rw [generate_embedding_hit he]
    exact ⟨rfl, rfl, rfl, rfl⟩

def failingProvider : Provider :=
  { attempt1 := fun _ => none
    attempt2 := fun _ => none
    batch := fun _ => none }

theorem generate_embedding_second_call_cached_witness :
    (generate_embedding failingProvider ⟨1, false⟩ "a" "general"
        ⟨[(("a", "general"), [5])]⟩).calls = 0 ∧
    (generate_embedding failingProvider ⟨1, false⟩ "a" "general"
        ⟨[(("a", "general"), [5])]⟩).emb = [5] := by
  have h := (generate_embedding_second_call_cached failingProvider ⟨1, false⟩ "a" "general"
      ⟨[(("a", "general"), [5])]⟩).2 [5] rfl
  exact ⟨h.1, h.2.1⟩

/-- C5: on a cache miss, a provider failure on the first attempt leads to a
single fixed backoff wait of 1 second and one retry on the input truncated
to 8000 characters; if the retry also fails the function returns the
all-zero vector of the configured embedding dimension. The return type is a
total value, so no provider error ever propagates to the caller. -/
theorem generate_embedding_retry_and_zero_vector (P : Provider) (cfg : EmbedConfig)
    (text ctx : String) (st : EMState)
    (hmiss : st.cache.lookup (text, ctx) = none) :
    (∀ e, P.attempt1 (contextPrefix ctx (preprocessByType text ctx)) = some e →
        (generate_embedding P cfg text ctx st).emb = truncDim cfg e ∧
        (generate_embedding P cfg text ctx st).calls = 1 ∧
        (generate_embedding P cfg text ctx st).sleeps = []) ∧
    (P.attempt1 (contextPrefix ctx (preprocessByType text ctx)) = none →
        (generate_embedding P cfg text ctx st).sleeps = [1] ∧
        (generate_embedding P cfg text ctx st).calls = 2 ∧
        (∀ e, P.attempt2 ((contextPrefix ctx (preprocessByType text ctx)).take 8000)
            = some e → (generate_embedding P cfg text ctx st).emb = truncDim cfg e) ∧
        (P.attempt2 ((contextPrefix ctx (preprocessByType text ctx)).take 8000) = none →
          (generate_embedding P cfg text ctx st).emb = List.replicate cfg.dim 0)) := by
  rw [generate_embedding_miss hmiss]
  unfold embedValue providerEmbed
  constructor
  · intro e he
    rw [he]
    exact ⟨rfl, rfl, rfl⟩
  · intro h1
    rw [h1]
    rcases h2 : P.attempt2 ((contextPrefix ctx (preprocessByType text ctx)).take 8000)
      with _ | e
    · refine ⟨rfl, rfl, fun e' he' => ?_, fun _ => rfl⟩
      exact absurd he' (by simp)
    · refine ⟨rfl, rfl, fun e' he' => ?_, fun hn => ?_⟩
      · injection he' with he''
        rw [he'']
      · exact absurd hn (by simp)

theorem generate_embedding_retry_and_zero_vector_witness :
    (generate_embedding failingProvider ⟨3, false⟩ "x" "general" ⟨[]⟩).emb
        = List.replicate 3 0 ∧
    (generate_embedding failingProvider ⟨3, false⟩ "x" "general" ⟨[]⟩).sleeps = [1] := by
  have h := (generate_embedding_retry_and_zero_vector failingProvider ⟨3, false⟩ "x"
      "general" ⟨[]⟩ rfl).2 rfl
  exact ⟨h.2.2.2 rfl, h.1⟩

/-- Dot product of two equal-length vectors (`np.dot` in
`calculate_similarity`). -/
def dotList (a b : List ℝ) : ℝ := (List.zipWith (fun x y => x * y) a b).sum

/-- Euclidean norm (`np.linalg.norm`). -/
noncomputable def normList (a : List ℝ) : ℝ := Real.sqrt (dotList a a)

/-- From `embedding_manager.EmbeddingManager.calculate_similarity`: cosine
similarity, defined as 0 when either vector has zero norm. -/
noncomputable def calculate_similarity (a b : List ℝ) : ℝ :=
  if normList a = 0 ∨ normList b = 0 then 0
  else dotList a b / (normList a * normList b)

/-- The `similarities` list built by the loop in `find_similar`: one
(item_id, similarity) pair per candidate whose similarity reaches the
threshold, in candidate order. -/
noncomputable def similarityList (query : List ℝ)
    (embeddings : List (String × List ℝ)) (threshold : ℝ) : List (String × ℝ) :=
  embeddings.filterMap (fun it =>
    let s := calculate_similarity query it.2
    if threshold ≤ s then some (it.1, s) else none)

/-- Insertion step of the stable descending sort: the new element goes after
every element with a strictly greater key and before the first element with a
smaller-or-equal key, so earlier elements win ties. -/
noncomputable def insertDesc (x : String × ℝ) : List (String × ℝ) → List (String × ℝ)
  | [] => [x]
  | y :: ys => if x.2 < y.2 then y :: insertDesc x ys else x :: y :: ys

/-- Stable descending sort by the similarity component. Python's
`list.sort(key=..., reverse=True)` is a stable descending sort, and a stable
sort's output is uniquely determined by the keys and the original order of
ties, so this insertion sort computes exactly the list the source produces. -/
noncomputable def sortDesc : List (String × ℝ) → List (String × ℝ)
  | [] => []
  | x :: xs => insertDesc x (sortDesc xs)

/-- From `embedding_manager.EmbeddingManager.find_similar`: filter by
threshold, sort descending by similarity (stable), truncate to `top_k`. -/
noncomputable def find_similar (query : List ℝ)
    (embeddings : List (String × List ℝ)) (top_k : ℕ) (threshold : ℝ) :
    List (String × ℝ) :=
  (sortDesc (similarityList query embeddings threshold)).take top_k

theorem mem_insertDesc {x a : String × ℝ} : ∀ {l : List (String × ℝ)},
    a ∈ insertDesc x l ↔ a = x ∨ a ∈ l := by
  intro l
  induction l with
  | nil => simp [insertDesc]
  | cons y ys ih =>
    unfold insertDesc
    split
    · simp only [List.mem_cons, ih]
      try tauto
    · simp only [List.mem_cons]
      try tauto

theorem insertDesc_perm (x : String × ℝ) : ∀ (l : List (String × ℝ)),
    List.Perm (insertDesc x l) (x :: l) := by
  intro l
  induction l with
  | nil => simp [insertDesc]
  | cons y ys ih =>
    unfold insertDesc
    split
    · exact (List.Perm.cons y ih).trans (List.Perm.swap x y ys)
    · exact List.Perm.refl _

theorem sortDesc_perm : ∀ (l : List (String × ℝ)), List.Perm (sortDesc l) l := by
  intro l
  induction l with
  | nil => exact List.Perm.refl _
  | cons x xs ih =>
    unfold sortDesc
    exact (insertDesc_perm x (sortDesc xs)).trans (List.Perm.cons x ih)

theorem insertDesc_pairwise (x : String × ℝ) : ∀ {l : List (String × ℝ)},
    List.Pairwise (fun p q => q.2 ≤ p.2) l →
    List.Pairwise (fun p q => q.2 ≤ p.2) (insertDesc x l) := by
  intro l
  induction l with
  | nil => intro _; simp [insertDesc]
  | cons y ys ih =>
    intro hp
    rcases List.pairwise_cons.mp hp with ⟨hy, hys⟩
    unfold insertDesc
    split
    · next hxy =>
      refine List.pairwise_cons.mpr ⟨?_, ih hys⟩
      intro a ha
      rcases mem_insertDesc.mp ha with h1 | h2
      · rw [h1]; exact le_of_lt hxy
      · exact hy a h2
    · next hxy =>
      push_neg at hxy
      refine List.pairwise_cons.mpr ⟨?_, hp⟩
      intro a ha
      rcases List.mem_cons.mp ha with h1 | h2
      · rw [h1]; exact hxy
      · exact le_trans (hy a h2) hxy

theorem sortDesc_pairwise : ∀ (l : List (String × ℝ)),
    List.Pairwise (fun p q => q.2 ≤ p.2) (sortDesc l) := by
  intro l
  induction l with
  | nil => simp [sortDesc]
  | cons x xs ih =>
    unfold sortDesc
    exact insertDesc_pairwise x ih

theorem filter_insertDesc (x : String × ℝ) (v : ℝ) : ∀ (l : List (String × ℝ)),
    (insertDesc x l).filter (fun a => decide (a.2 = v))
      = if x.2 = v then x :: l.filter (fun a => decide (a.2 = v))
        else l.filter (fun a => decide (a.2 = v)) := by
  intro l
  induction l with
  | nil =>
    unfold insertDesc
    by_cases hx : x.2 = v <;> simp [List.filter, hx]
  | cons y ys ih =>
    unfold insertDesc
    split
    · next hxy =>
      by_cases hx : x.2 = v
      · have hyv : ¬ y.2 = v := by
          intro hyv
          rw [hx] at hxy
          rw [hyv] at hxy
          exact lt_irrefl v hxy
        simp only [List.filter_cons, ih]
        rw [if_pos hx, if_pos hx]
        simp [hyv]
      · simp only [List.filter_cons, ih]
        rw [if_neg hx, if_neg hx]
    · simp only [List.filter_cons]
      by_cases hx : x.2 = v
      · rw [if_pos hx]
        simp [hx]
      · rw [if_neg hx]
        simp [hx]

theorem sortDesc_filter (v : ℝ) : ∀ (l : List (String × ℝ)),
    (sortDesc l).filter (fun a => decide (a.2 = v))
      = l.filter (fun a => decide (a.2 = v)) := by
  intro l
  induction l with
  | nil => rfl
  | cons x xs ih =>
    unfold sortDesc
    rw [filter_insertDesc, ih, List.filter_cons]
    by_cases hx : x.2 = v
    · rw [if_pos hx]
      simp [hx]
    · rw [if_neg hx]
      simp [hx]

theorem filter_take_isPrefixOf_filter (p : String × ℝ → Bool) (n : ℕ)
    (l : List (String × ℝ)) : (l.take n).filter p <+: l.filter p :=
  ⟨(l.drop n).filter p, by rw [← List.filter_append, List.take_append_drop]⟩

/-- C7: `find_similar` returns at most `top_k` items; every returned item
reaches the threshold and carries the cosine similarity of one of the
candidates; the output is sorted non-increasing by similarity; and for every
similarity value the returned items with that value form a prefix of the
threshold-filtered candidate list in its original order (stability of the
sort, preserved by the truncation). -/
theorem find_similar_spec (query : List ℝ) (embeddings : List (String × List ℝ))
    (top_k : ℕ) (threshold : ℝ) :
    (find_similar query embeddings top_k threshold).length ≤ top_k ∧
    (∀ p ∈ find_similar query embeddings top_k threshold,
        threshold ≤ p.2 ∧ ∃ c ∈ embeddings, p.1 = c.1 ∧
          p.2 = calculate_similarity query c.2) ∧
    List.Pairwise (fun p q => q.2 ≤ p.2) (find_similar query embeddings top_k threshold) ∧
    (∀ v : ℝ, (find_similar query embeddings top_k threshold).filter
          (fun a => decide (a.2 = v))
        <+: (similarityList query embeddings threshold).filter
          (fun a => decide (a.2 = v))) := by
  refine ⟨?_, ?_, ?_, ?_⟩
  · unfold find_similar
    rw [List.length_take]
    exact min_le_left _ _
  · intro p hp
    unfold find_similar at hp
    have hp1 : p ∈ sortDesc (similarityList query embeddings threshold) :=
      List.mem_of_mem_take hp
    have hp2 : p ∈ similarityList query embeddings threshold :=
      (sortDesc_perm _).mem_iff.mp hp1
    unfold similarityList at hp2
    rcases List.mem_filterMap.mp hp2 with ⟨c, hc, hsome⟩
    dsimp only at hsome
    split at hsome
    · next hth =>
      injection hsome with hsome
      rw [← hsome]
      exact ⟨hth, c, hc, rfl, rfl⟩
    · exact absurd hsome (by simp)
  · unfold find_similar
    exact (sortDesc_pairwise _).sublist (List.take_sublist _ _)
  · intro v
    unfold find_similar
    have h1 := filter_take_isPrefixOf_filter (fun a => decide (a.2 = v)) top_k
      (sortDesc (similarityList query embeddings threshold))
    rw [sortDesc_filter] at h1
    exact h1

/-- From `vector_graph_database.VectorGraphDatabase._interpret_drift` (the
leading underscore of the Python name is dropped): fixed interpretation
bands on the drift value. -/
noncomputable def interpret_drift (drift : ℝ) : String :=
  if drift < 0.2 then "Stable: minimal semantic changes over time"
  else if drift < 0.5 then "Evolving: moderate semantic evolution"
  else if drift < 0.8 then "Significant evolution: substantial semantic changes"
  else "Major transformation: fundamental semantic shifts"

/-- The drift-relevant fields of the dictionary returned by
`analyze_semantic_evolution` (`file_path` and the verbatim timeline records
are presentation data carried through unchanged). -/
structure EvolutionResult where
  total_changes : ℕ
  semantic_drift : ℝ
  drift_interpretation : String

/-- From `vector_graph_database.VectorGraphDatabase.analyze_semantic_evolution`:
given the time-ordered embeddings fetched from the store, with more than one
point the drift is the mean of `1 - calculate_similarity(embeddings[0],
embeddings[i])` over `i in 1..n-1`, else 0; the interpretation is always
`interpret_drift` of the computed drift. -/
noncomputable def analyze_semantic_evolution (embeddings : List (List ℝ)) :
    EvolutionResult :=
  let semantic_drift : ℝ :=
    if 1 < embeddings.length then
      let drift_scores := embeddings.tail.map
        (fun ei => 1 - calculate_similarity embeddings.headI ei)
      drift_scores.sum / drift_scores.length
    else 0
  ⟨embeddings.length, semantic_drift, interpret_drift semantic_drift⟩

theorem interpret_drift_stable {d : ℝ} (h : d < 0.2) :
    interpret_drift d = "Stable: minimal semantic changes over time" := by
  unfold interpret_drift
  rw [if_pos h]

theorem interpret_drift_evolving {d : ℝ} (h1 : 0.2 ≤ d) (h2 : d < 0.5) :
    interpret_drift d = "Evolving: moderate semantic evolution" := by
  unfold interpret_drift
  rw [if_neg (not_lt.mpr h1), if_pos h2]

theorem interpret_drift_significant {d : ℝ} (h1 : 0.5 ≤ d) (h2 : d < 0.8) :
    interpret_drift d = "Significant evolution: substantial semantic changes" := by
  unfold interpret_drift
  rw [if_neg (not_lt.mpr (le_trans (by norm_num) h1)), if_neg (not_lt.mpr h1), if_pos h2]

theorem interpret_drift_major {d : ℝ} (h1 : 0.8 ≤ d) :
    interpret_drift d = "Major transformation: fundamental semantic shifts" := by
  unfold interpret_drift
  rw [if_neg (not_lt.mpr (le_trans (by norm_num) h1)),
    if_neg (not_lt.mpr (le_trans (by norm_num) h1)), if_neg (not_lt.mpr h1)]

theorem map_eq_range_map_getD (f : List ℝ → ℝ) : ∀ (l : List (List ℝ)),
    l.map f = (List.range l.length).map (fun i => f (l.getD i [])) := by
  intro l
  induction l with
  | nil => rfl
  | cons x xs ih =>
    simp only [List.length_cons, List.range_succ_eq_map, List.map_cons, List.map_map]
    congr 1

theorem headI_eq_getD (l : List (List ℝ)) : l.headI = l.getD 0 [] := by
  cases l <;> rfl

/-- C3 counterexample: with an empty embedding history (fewer than 2 points)
the source returns drift 0 but labels it with `_interpret_drift(0)`, the
stable band text, not the claimed "insufficient history". -/
theorem analyze_semantic_evolution_counterexample :
    (analyze_semantic_evolution []).semantic_drift = 0 ∧
    (analyze_semantic_evolution []).drift_interpretation
        = "Stable: minimal semantic changes over time" ∧
    (analyze_semantic_evolution []).drift_interpretation ≠ "insufficient history" := by
  have h0 : (analyze_semantic_evolution []).drift_interpretation = interpret_drift 0 := rfl
  have h1 : interpret_drift 0 = "Stable: minimal semantic changes over time" :=
    interpret_drift_stable (by norm_num)
  refine ⟨rfl, h0.trans h1, ?_⟩
  rw [h0, h1]
  decide

/-- C3 (amended): `analyze_semantic_evolution` with fewer than 2 time-ordered
points returns drift 0 labelled with the stable band text (not "insufficient
history"); with n ≥ 2 points the drift equals the mean over i in 1..n-1 of
`1 - calculate_similarity(embedding[0], embedding[i])`; the interpretation is
always `interpret_drift` of the drift, whose bands partition the line as
claimed: 0.19 is stable, 0.2 evolving, 0.79 significant, 0.8 major. -/
theorem analyze_semantic_evolution_spec (es : List (List ℝ)) :
    (analyze_semantic_evolution es).total_changes = es.length ∧
    (analyze_semantic_evolution es).drift_interpretation
        = interpret_drift (analyze_semantic_evolution es).semantic_drift ∧
    (es.length < 2 → (analyze_semantic_evolution es).semantic_drift = 0 ∧
        (analyze_semantic_evolution es).drift_interpretation
          = "Stable: minimal semantic changes over time") ∧
    (2 ≤ es.length → (analyze_semantic_evolution es).semantic_drift
        = ((List.range (es.length - 1)).map
            (fun i => 1 - calculate_similarity (es.getD 0 []) (es.getD (i + 1) []))).sum
          / ((es.length - 1 : ℕ) : ℝ)) ∧
    interpret_drift 0.19 = "Stable: minimal semantic changes over time" ∧
    interpret_drift 0.2 = "Evolving: moderate semantic evolution" ∧
    interpret_drift 0.79 = "Significant evolution: substantial semantic changes" ∧
    interpret_drift 0.8 = "Major transformation: fundamental semantic shifts" := by
  refine ⟨rfl, rfl, ?_, ?_,
    interpret_drift_stable (by norm_num),
    interpret_drift_evolving (by norm_num) (by norm_num),
    interpret_drift_significant (by norm_num) (by norm_num),
    interpret_drift_major (by norm_num)⟩
  · intro hlt
    have hnot : ¬ (1 < es.length) := by omega
    constructor
    · show (if 1 < es.length then _ else 0) = 0
      rw [if_neg hnot]
    · show interpret_drift (if 1 < es.length then _ else 0)
          = "Stable: minimal semantic changes over time"
      rw [if_neg hnot]
      exact interpret_drift_stable (by norm_num)
  · intro hge
    show (if 1 < es.length then
        (es.tail.map (fun ei => 1 - calculate_similarity es.headI ei)).sum
          / ((es.tail.map (fun ei => 1 - calculate_similarity es.headI ei)).length : ℝ)
      else 0) = _
    rw [if_pos (by omega)]
    rw [headI_eq_getD]
    rw [map_eq_range_map_getD (fun ei => 1 - calculate_similarity (es.getD 0 []) ei) es.tail]
    have htl : es.tail.length = es.length - 1 := List.length_tail es
    rw [List.length_map, List.length_range, htl]
    congr 1
    apply congrArg List.sum
    apply List.map_congr_left
    intro i _
    have : es.tail.getD i [] = es.getD (i + 1) [] := by
      cases es with
      | nil => simp at hge
      | cons e tl => rfl
    rw [this]

theorem analyze_semantic_evolution_spec_witness :
    (analyze_semantic_evolution [[(1 : ℝ)]]).semantic_drift = 0 ∧
    (analyze_semantic_evolution [[(1 : ℝ)], [1]]).semantic_drift
        = ((List.range 1).map
            (fun i => 1 - calculate_similarity ([[(1 : ℝ)], [1]].getD 0 [])
              ([[(1 : ℝ)], [1]].getD (i + 1) []))).sum / ((1 : ℕ) : ℝ) := by
  constructor
  · exact ((analyze_semantic_evolution_spec [[(1 : ℝ)]]).2.2.1 (by norm_num)).1
  · exact (analyze_semantic_evolution_spec [[(1 : ℝ)], [1]]).2.2.2.1 (by norm_num)

/-- C10: the drift interpretation is total on all of ℝ — every real drift
value gets exactly one of the four labels; any value above 1 (indeed any
value at least 0.8) is labelled major transformation and any negative value
is labelled stable. Drift values above 1 are reachable from the code's drift
formula because cosine similarity can be negative: the history
[[1], [-1]] yields drift exactly 2 (the maximum) and [[1, 0], [-3, 4]]
yields drift 8/5, strictly between 1 and 2. -/
theorem interpret_drift_total_and_above_one (d : ℝ) :
    (interpret_drift d = "Stable: minimal semantic changes over time"
      ∨ interpret_drift d = "Evolving: moderate semantic evolution"
      ∨ interpret_drift d = "Significant evolution: substantial semantic changes"
      ∨ interpret_drift d = "Major transformation: fundamental semantic shifts") ∧
    (1 < d → interpret_drift d = "Major transformation: fundamental semantic shifts") ∧
    (d < 0 → interpret_drift d = "Stable: minimal semantic changes over time") ∧
    (analyze_semantic_evolution [[(1 : ℝ)], [-1]]).semantic_drift = 2 ∧
    (analyze_semantic_evolution [[(1 : ℝ), 0], [-3, 4]]).semantic_drift = 8 / 5 ∧
    1 < (analyze_semantic_evolution [[(1 : ℝ), 0], [-3, 4]]).semantic_drift ∧
    interpret_drift (analyze_semantic_evolution [[(1 : ℝ)], [-1]]).semantic_drift
        = "Major transformation: fundamental semantic shifts" := by
  have hd2 : (analyze_semantic_evolution [[(1 : ℝ)], [-1]]).semantic_drift = 2 := by
    have hcs : calculate_similarity [(1 : ℝ)] [(-1 : ℝ)] = -1 := by
      have hn1 : normList [(1 : ℝ)] = 1 := by unfold normList dotList; simp
      have hn2 : normList [(-1 : ℝ)] = 1 := by unfold normList dotList; norm_num
      unfold calculate_similarity
      rw [hn1, hn2, if_neg (by norm_num)]
      unfold dotList
      norm_num
    unfold analyze_semantic_evolution
    rw [if_pos (by norm_num)]
    dsimp only [List.tail_cons, List.headI, List.map_cons, List.map_nil]
    rw [hcs]
    norm_num
  have hd85 : (analyze_semantic_evolution [[(1 : ℝ), 0], [-3, 4]]).semantic_drift
      = 8 / 5 := by
    have hcs : calculate_similarity [(1 : ℝ), 0] [(-3 : ℝ), 4] = -3 / 5 := by
      have hn1 : normList [(1 : ℝ), 0] = 1 := by unfold normList dotList; norm_num
      have hn2 : normList [(-3 : ℝ), 4] = 5 := by
        unfold normList dotList
        have h : ((-3 : ℝ)) * -3 + (4 * 4 + 0) = 5 ^ 2 := by norm_num
        simp only [List.zipWith, List.sum_cons, List.sum_nil]
        rw [h, Real.sqrt_sq (by norm_num : (0 : ℝ) ≤ 5)]
      unfold calculate_similarity
      rw [hn1, hn2, if_neg (by norm_num)]
      unfold dotList
      norm_num
    unfold analyze_semantic_evolution
    rw [if_pos (by norm_num)]
    dsimp only [List.tail_cons, List.headI, List.map_cons, List.map_nil]
    rw [hcs]
    norm_num
  refine ⟨?_, ?_, ?_, hd2, hd85, ?_, ?_⟩
  · by_cases h1 : d < 0.2
    · exact Or.inl (interpret_drift_stable h1)
    · by_cases h2 : d < 0.5
      · exact Or.inr (Or.inl (interpret_drift_evolving (not_lt.mp h1) h2))
      · by_cases h3 : d < 0.8
        · exact Or.inr (Or.inr (Or.inl (interpret_drift_significant (not_lt.mp h2) h3)))
        · exact Or.inr (Or.inr (Or.inr (interpret_drift_major (not_lt.mp h3))))
  · intro h
    exact interpret_drift_major (by linarith)
  · intro h
    exact interpret_drift_stable (by linarith)
  · rw [hd85]
    norm_num
  · rw [hd2]
    exact interpret_drift_major (by norm_num)

theorem interpret_drift_total_and_above_one_witness :
    interpret_drift 1.5 = "Major transformation: fundamental semantic shifts" ∧
    interpret_drift (-1) = "Stable: minimal semantic changes over time" :=
  ⟨(interpret_drift_total_and_above_one 1.5).2.1 (by norm_num),
   (interpret_drift_total_and_above_one (-1)).2.2.1 (by norm_num)⟩

/-- Intent handlers of `semantic_query_engine.SemanticQueryEngine`; we model
the routing decision of `answer_question` (which handler a question is
dispatched to). -/
inductive Handler
  | semantic
  | evolution
  | impact
  | pattern
  | collaboration
  | general
deriving DecidableEq

/-- Keyword table of `_is_semantic_query`. -/
def semantic_keywords : List String := ["similar", "like", "related", "same as", "comparable"]

/-- Keyword table of `_is_evolution_query`. -/
def evolution_keywords : List String :=
  ["evolve", "change over time", "history", "progression", "timeline", "drift", "transform"]

/-- Keyword table of `_is_impact_query`. -/
def impact_keywords : List String := ["impact", "affect", "consequence", "result", "cause"]

/-- Keyword table of `_is_pattern_query`. -/
def pattern_keywords : List String := ["pattern", "trend", "common", "frequent", "typical"]

/-- Keyword table of `_is_collaboration_query`. -/
def collab_keywords : List String := ["who", "author", "contributor", "team", "collaborate"]

/-- Python `any(keyword in question for keyword in keywords)`. -/
def containsAny (q : String) (kws : List String) : Bool := kws.any (fun k => strContains q k)

def is_semantic_query (q : String) : Bool := containsAny q semantic_keywords

def is_evolution_query (q : String) : Bool := containsAny q evolution_keywords

def is_impact_query (q : String) : Bool := containsAny q impact_keywords

def is_pattern_query (q : String) : Bool := containsAny q pattern_keywords

def is_collaboration_query (q : String) : Bool := containsAny q collab_keywords

/-- From `semantic_query_engine.SemanticQueryEngine.answer_question`: lower
the question, test the five keyword predicates in fixed priority order,
dispatch to the first match, fall through to the general handler. -/
def answer_question (question : String) : Handler :=
  let ql := strLower question
  if is_semantic_query ql then Handler.semantic
  else if is_evolution_query ql then Handler.evolution
  else if is_impact_query ql then Handler.impact
  else if is_pattern_query ql then Handler.pattern
  else if is_collaboration_query ql then Handler.collaboration
  else Handler.general

/-- Modelled from the claim: the same routing but with exactly the keyword
sets the claim enumerates — evolution (evolve/history/timeline/drift),
impact (impact/affect/consequence/cause), pattern
(pattern/trend/common/frequent), collaboration (who/author/contributor/team);
the semantic set coincides with the source. Written out to be compared with
`answer_question`. -/
def answer_question_claim (question : String) : Handler :=
  let ql := strLower question
  if containsAny ql ["similar", "like", "related", "same as", "comparable"] then
    Handler.semantic
  else if containsAny ql ["evolve", "history", "timeline", "drift"] then Handler.evolution
  else if containsAny ql ["impact", "affect", "consequence", "cause"] then Handler.impact
  else if containsAny ql ["pattern", "trend", "common", "frequent"] then Handler.pattern
  else if containsAny ql ["who", "author", "contributor", "team"] then
    Handler.collaboration
  else Handler.general

/-- C6 counterexample: the source's keyword sets strictly extend the claim's
enumerations, so routing differs: the question "typical" matches the source's
pattern set (keyword "typical") but none of the claim's sets, hence the code
routes it to the pattern handler while the claim as stated requires the
general handler. -/
theorem answer_question_claim_counterexample :
    answer_question "typical" = Handler.pattern ∧
    answer_question_claim "typical" = Handler.general ∧
    answer_question "typical" ≠ answer_question_claim "typical" := by
  refine ⟨by decide, by decide, by decide⟩

/-- C6 (amended): `answer_question` tests the lowered question against the
source's five keyword sets in the fixed priority order semantic > evolution >
impact > pattern > collaboration (the sets extend the claim's enumerations
with: change over time, progression, transform for evolution; result for
impact; typical for pattern; collaborate for collaboration), dispatches to
the first matching handler, falls through to the general handler, and in
particular any question containing "similar" — such as one also containing
"fix" — routes to the semantic handler. -/
theorem answer_question_priority (q : String) :
    (answer_question q = Handler.semantic ↔ is_semantic_query (strLower q) = true) ∧
    (answer_question q = Handler.evolution ↔
      (is_semantic_query (strLower q) = false ∧ is_evolution_query (strLower q) = true)) ∧
    (answer_question q = Handler.impact ↔
      (is_semantic_query (strLower q) = false ∧ is_evolution_query (strLower q) = false ∧
        is_impact_query (strLower q) = true)) ∧
    (answer_question q = Handler.pattern ↔
      (is_semantic_query (strLower q) = false ∧ is_evolution_query (strLower q) = false ∧
        is_impact_query (strLower q) = false ∧ is_pattern_query (strLower q) = true)) ∧
    (answer_question q = Handler.collaboration ↔
      (is_semantic_query (strLower q) = false ∧ is_evolution_query (strLower q) = false ∧
        is_impact_query (strLower q) = false ∧ is_pattern_query (strLower q) = false ∧
        is_collaboration_query (strLower q) = true)) ∧
    (answer_question q = Handler.general ↔
      (is_semantic_query (strLower q) = false ∧ is_evolution_query (strLower q) = false ∧
        is_impact_query (strLower q) = false ∧ is_pattern_query (strLower q) = false ∧
        is_collaboration_query (strLower q) = false)) ∧
    (strContains (strLower q) "similar" = true → answer_question q = Handler.semantic) := by
  have hsim : strContains (strLower q) "similar" = true →
      is_semantic_query (strLower q) = true := by
    intro h
    unfold is_semantic_query containsAny semantic_keywords
    simp only [List.any_cons, h, Bool.true_or]
  have himp : strContains (strLower q) "similar" = true →
      answer_question q = Handler.semantic := by
    intro h
    unfold answer_question
    simp [hsim h]
  refine ⟨?_, ?_, ?_, ?_, ?_, ?_, himp⟩ <;>
  · unfold answer_question
    rcases h1 : is_semantic_query (strLower q) with _ | _ <;>
      rcases h2 : is_evolution_query (strLower q) with _ | _ <;>
      rcases h3 : is_impact_query (strLower q) with _ | _ <;>
      rcases h4 : is_pattern_query (strLower q) with _ | _ <;>
      rcases h5 : is_collaboration_query (strLower q) with _ | _ <;>
      simp [h1, h2, h3, h4, h5]

theorem answer_question_priority_witness :
    answer_question "Find commits similar to auth fixes" = Handler.semantic :=
  (answer_question_priority "Find commits similar to auth fixes").2.2.2.2.2.2 (by decide)

/-- Behaviour of `sklearn.cluster.KMeans(...).fit_predict`, an external
collaborator, as a function of (n_clusters, random_state, n_init, data).
With a fixed `random_state` the call is deterministic, so a pure function
models it; its documented contract — one label per sample, in sample order —
is taken as a hypothesis where needed. -/
def KMeansFn : Type := ℕ → ℕ → ℕ → List (List ℝ) → List ℕ

/-- From `embedding_manager.EmbeddingManager.cluster_embeddings`: clip the
requested cluster count to the sample count, then run KMeans with the fixed
seed `random_state=42` and `n_init=10`; the fixed seed is what makes
identical input yield identical output. -/
def cluster_embeddings (kmeans : KMeansFn) (embeddings : List (List ℝ))
    (n_clusters : ℕ) : List ℕ :=
  let k := if embeddings.length < n_clusters then embeddings.length else n_clusters
  kmeans k 42 10 embeddings

/-- One update of Python
`cluster_counts[cluster] = cluster_counts.get(cluster, 0) + 1` on an
insertion-ordered association list (the model of a Python dict). -/
def bump (k : ℕ) : List (ℕ × ℕ) → List (ℕ × ℕ)
  | [] => [(k, 1)]
  | (j, c) :: rest => if j = k then (j, c + 1) :: rest else (j, c) :: bump k rest

/-- The `cluster_counts` dict built by the loop of
`identify_semantic_patterns`. -/
def countsOf (l : List ℕ) : List (ℕ × ℕ) := l.foldl (fun acc k => bump k acc) []

/-- Python `max(iterable, key=...)` over the dict keys: scans in insertion
order and replaces the current best only on a strictly greater value, hence
returns the first key attaining the maximum count. -/
def firstArgmax (best : ℕ × ℕ) : List (ℕ × ℕ) → ℕ
  | [] => best.1
  | (k, v) :: rest =>
    if best.2 < v then firstArgmax (k, v) rest else firstArgmax best rest

/-- Python `max(cluster_counts, key=cluster_counts.get) if cluster_counts
else None`. -/
def dominantKey : List (ℕ × ℕ) → Option ℕ
  | [] => none
  | c :: rest => some (firstArgmax c rest)

/-- Result dictionary of `identify_semantic_patterns`. -/
structure PatternsResult where
  n_patterns : ℕ
  cluster_assignments : List ℕ
  cluster_sizes : List (ℕ × ℕ)
  dominant_pattern : Option ℕ

/-- From `embedding_manager.CodeEmbeddingAnalyzer.identify_semantic_patterns`. -/
def identify_semantic_patterns (kmeans : KMeansFn)
    (commit_embeddings : List (List ℝ)) (n_patterns : ℕ) : PatternsResult :=
  let clusters := cluster_embeddings kmeans commit_embeddings n_patterns
  let cluster_counts := countsOf clusters
  ⟨n_patterns, clusters, cluster_counts, dominantKey cluster_counts⟩

/-- One per-cluster record of `identify_semantic_clusters`. -/
structure ClusterReport where
  cluster_id : ℕ
  size : ℕ
  sample_commits : List String

/-- Result dictionary of `identify_semantic_clusters`; `cluster_sizes` and
`message` are present only in the respective branch of the source. -/
structure ClustersResult where
  total_commits_analyzed : ℕ
  num_clusters : ℕ
  clusters : List ClusterReport
  cluster_sizes : Option (List (ℕ × ℕ))
  message : Option String

/-- From `vector_graph_database.VectorGraphDatabase.identify_semantic_clusters`:
`data` pairs each fetched commit (identified by its sha) with its embedding,
in corpus order. With more than 5 samples the commits are clustered via
`identify_semantic_patterns` (target 5) and each cluster reports its id, its
member count and the first 5 members in corpus order; otherwise an explicit
"not enough data" result with zero clusters is returned. Python's `set`
iteration order is unspecified; the cluster-id enumeration is modelled with
`List.dedup`, and no proved property depends on that order. -/
def identify_semantic_clusters (kmeans : KMeansFn)
    (data : List (String × List ℝ)) : ClustersResult :=
  let commits := data.map Prod.fst
  let embeddings := data.map Prod.snd
  if 5 < embeddings.length then
    let patterns := identify_semantic_patterns kmeans embeddings 5
    let labeled := commits.zip patterns.cluster_assignments
    let ids := patterns.cluster_assignments.dedup
    let clusters := ids.map (fun cid =>
      let members := (labeled.filter (fun p => p.2 == cid)).map Prod.fst
      ⟨cid, members.length, members.take 5⟩)
    ⟨data.length, patterns.n_patterns, clusters, some patterns.cluster_sizes, none⟩
  else
    ⟨data.length, 0, [], none, some "Not enough data for clustering"⟩

theorem bump_lookup_self (k : ℕ) : ∀ (acc : List (ℕ × ℕ)),
    (bump k acc).lookup k = some ((acc.lookup k).getD 0 + 1) := by
  intro acc
  induction acc with
  | nil => simp [bump, List.lookup]
  | cons p rest ih =>
    match p with
    | (j, c) =>
      unfold bump
      by_cases hj : j = k
      · subst hj
        simp [List.lookup]
      · rw [if_neg hj]
        have hbeq : (k == j) = false := by
          simp only [beq_eq_false_iff_ne, ne_eq]
          exact fun hkj => hj hkj.symm
        simp only [List.lookup, hbeq]
        exact ih

theorem bump_lookup_other (k j : ℕ) (hne : j ≠ k) : ∀ (acc : List (ℕ × ℕ)),
    (bump k acc).lookup j = acc.lookup j := by
  intro acc
  induction acc with
  | nil =>
    simp only [bump, List.lookup]
    have hbeq : (j == k) = false := by simp [hne]
    simp [hbeq]
  | cons p rest ih =>
    match p with
    | (i, c) =>
      unfold bump
      by_cases hi : i = k
      · subst hi
        have hbeq : (j == i) = false := by simp [hne]
        simp [List.lookup, hbeq]
      · rw [if_neg hi]
        simp only [List.lookup]
        cases hji : (j == i) with
        | true => rfl
        | false => exact ih

theorem foldl_bump_lookup : ∀ (l : List ℕ) (acc : List (ℕ × ℕ)) (k : ℕ),
    (l.foldl (fun a j => bump j a) acc).lookup k
      = if acc.lookup k = none ∧ l.count k = 0 then none
        else some ((acc.lookup k).getD 0 + l.count k) := by
  intro l
  induction l with
  | nil =>
    intro acc k
    simp only [List.foldl_nil, List.count_nil]
    rcases h : acc.lookup k with _ | v
    · simp [h]
    · simp [h]
  | cons j l ih =>
    intro acc k
    simp only [List.foldl_cons]
    rw [ih (bump j acc) k]
    by_cases hk : k = j
    · subst hk
      rw [bump_lookup_self]
      have hcount : (k :: l).count k = l.count k + 1 := by
        simp [List.count_cons]
      rw [hcount]
      simp only [Option.getD_some, reduceCtorEq, false_and, if_false]
      rcases h : acc.lookup k with _ | v
      · simp [h]
        omega
      · simp [h]
        omega
    · rw [bump_lookup_other j k hk]
      have hcount : (j :: l).count k = l.count k := by
        simp [List.count_cons, hk]
      rw [hcount]

theorem countsOf_lookup (l : List ℕ) (k : ℕ) :
    (countsOf l).lookup k = if l.count k = 0 then none else some (l.count k) := by
  unfold countsOf
  rw [foldl_bump_lookup l [] k]
  simp [List.lookup]

theorem bump_keys (k : ℕ) : ∀ (acc : List (ℕ × ℕ)),
    (bump k acc).map Prod.fst
      = if k ∈ acc.map Prod.fst then acc.map Prod.fst else acc.map Prod.fst ++ [k] := by
  intro acc
  induction acc with
  | nil => simp [bump]
  | cons p rest ih =>
    match p with
    | (j, c) =>
      unfold bump
      by_cases hj : j = k
      · subst hj
        simp
      · rw [if_neg hj]
        have hkj : ¬ k = j := fun h => hj h.symm
        simp only [List.map_cons, ih]
        by_cases hmem : k ∈ rest.map Prod.fst
        · rw [if_pos hmem, if_pos (List.mem_cons.mpr (Or.inr hmem))]
        · rw [if_neg hmem, if_neg ?hni]
          case hni =>
            intro hc
            rcases List.mem_cons.mp hc with h1 | h1
            · exact hkj h1
            · exact hmem h1
          rfl

theorem bump_keys_nodup (k : ℕ) (acc : List (ℕ × ℕ))
    (h : (acc.map Prod.fst).Nodup) : ((bump k acc).map Prod.fst).Nodup := by
  rw [bump_keys]
  by_cases hmem : k ∈ acc.map Prod.fst
  · rw [if_pos hmem]; exact h
  · rw [if_neg hmem]
    rw [List.nodup_append]
    exact ⟨h, List.nodup_singleton k, by simpa using hmem⟩

theorem countsOf_keys_nodup (l : List ℕ) : ((countsOf l).map Prod.fst).Nodup := by
  unfold countsOf
  suffices h : ∀ (acc : List (ℕ × ℕ)), (acc.map Prod.fst).Nodup →
      ((l.foldl (fun a k => bump k a) acc).map Prod.fst).Nodup from
    h [] (by simp)
  induction l with
  | nil => intro acc hacc; exact hacc
  | cons j l ih =>
    intro acc hacc
    simp only [List.foldl_cons]
    exact ih (bump j acc) (bump_keys_nodup j acc hacc)

theorem lookup_eq_some_of_mem_nodup : ∀ {l : List (ℕ × ℕ)} {p : ℕ × ℕ},
    (l.map Prod.fst).Nodup → p ∈ l → l.lookup p.1 = some p.2 := by
  intro l
  induction l with
  | nil => intro p _ hp; simp at hp
  | cons q rest ih =>
    intro p hnd hp
    rcases List.mem_cons.mp hp with h1 | h2
    · subst h1
      simp [List.lookup]
    · have hq1 : q.1 ≠ p.1 := by
        intro heq
        have : p.1 ∈ rest.map Prod.fst := List.mem_map.mpr ⟨p, h2, rfl⟩
        rw [List.map_cons, List.nodup_cons] at hnd
        exact hnd.1 (heq ▸ this)
      have hbeq : (p.1 == q.1) = false := by
        simp only [beq_eq_false_iff_ne, ne_eq]
        exact fun h => hq1 h.symm
      simp only [List.lookup, hbeq]
      rw [List.map_cons, List.nodup_cons] at hnd
      exact ih hnd.2 h2

theorem mem_countsOf_eq_count {l : List ℕ} {p : ℕ × ℕ} (hp : p ∈ countsOf l) :
    p.2 = l.count p.1 := by
  have h1 := lookup_eq_some_of_mem_nodup (countsOf_keys_nodup l) hp
  rw [countsOf_lookup] at h1
  by_cases h : l.count p.1 = 0
  · rw [if_pos h] at h1; cases h1
  · rw [if_neg h] at h1
    injection h1 with h1
    exact h1.symm

theorem firstArgmax_spec : ∀ (rest : List (ℕ × ℕ)) (best : ℕ × ℕ),
    ∃ q, (q = best ∨ q ∈ rest) ∧ firstArgmax best rest = q.1 ∧ best.2 ≤ q.2 ∧
      ∀ p ∈ rest, p.2 ≤ q.2 := by
  intro rest
  induction rest with
  | nil =>
    intro best
    exact ⟨best, Or.inl rfl, rfl, le_refl _, by simp⟩
  | cons r rest ih =>
    intro best
    match r with
    | (k, v) =>
      unfold firstArgmax
      by_cases hlt : best.2 < v
      · rw [if_pos hlt]
        obtain ⟨q, hq1, hq2, hq3, hq4⟩ := ih (k, v)
        refine ⟨q, ?_, hq2, le_trans (le_of_lt hlt) hq3, ?_⟩
        · rcases hq1 with h | h
          · exact Or.inr (List.mem_cons.mpr (Or.inl h))
          · exact Or.inr (List.mem_cons.mpr (Or.inr h))
        · intro p hp
          rcases List.mem_cons.mp hp with h | h
          · subst h; exact hq3
          · exact hq4 p h
      · rw [if_neg hlt]
        obtain ⟨q, hq1, hq2, hq3, hq4⟩ := ih best
        refine ⟨q, ?_, hq2, hq3, ?_⟩
        · rcases hq1 with h | h
          · exact Or.inl h
          · exact Or.inr (List.mem_cons.mpr (Or.inr h))
        · intro p hp
          rcases List.mem_cons.mp hp with h | h
          · subst h
            exact le_trans (not_lt.mp hlt) hq3
          · exact hq4 p h

theorem dominantKey_spec {counts : List (ℕ × ℕ)} {d : ℕ}
    (h : dominantKey counts = some d) :
    ∃ q ∈ counts, q.1 = d ∧ ∀ p ∈ counts, p.2 ≤ q.2 := by
  match counts with
  | [] => simp [dominantKey] at h
  | c :: rest =>
    simp only [dominantKey, Option.some.injEq] at h
    obtain ⟨q, hq1, hq2, hq3, hq4⟩ := firstArgmax_spec rest c
    refine ⟨q, ?_, hq2 ▸ h, ?_⟩
    · rcases hq1 with h1 | h1
      · exact h1 ▸ List.mem_cons_self c rest
      · exact List.mem_cons.mpr (Or.inr h1)
    · intro p hp
      rcases List.mem_cons.mp hp with h1 | h1
      · subst h1; exact hq3
      · exact hq4 p h1

theorem zip_filter_count : ∀ (xs : List String) (ys : List ℕ) (c : ℕ),
    xs.length = ys.length →
    ((xs.zip ys).filter (fun p => p.2 == c)).length = ys.count c := by
  intro xs
  induction xs with
  | nil =>
    intro ys c h
    match ys with
    | [] => rfl
    | y :: ys => simp at h
  | cons x xs ih =>
    intro ys c h
    match ys with
    | [] => simp at h
    | y :: ys =>
      have hlen : xs.length = ys.length := by
        simp only [List.length_cons] at h
        omega
      simp only [List.zip_cons_cons, List.filter_cons, List.count_cons]
      by_cases hy : y = c
      · have hbeq : (y == c) = true := by simp [hy]
        simp only [hbeq, if_true, List.length_cons]
        rw [ih _ _ hlen]
      · have hbeq : (y == c) = false := by simp [hy]
        simp only [hbeq, Bool.false_eq_true, if_false]
        rw [ih _ _ hlen]
        omega

/-- C8: `cluster_embeddings` clips the requested cluster count to
`min(k, len(embeddings))` — in particular `k > len(embeddings)` requests
exactly `len(embeddings)` clusters — and, provided KMeans returns one label
per sample, returns exactly one cluster id per input embedding in input
order; the call passes the fixed `random_state=42`, so as a function of its
input the result is reproducible (the model is a pure function of
(k, seed, n_init, data)). -/
theorem cluster_embeddings_spec (kmeans : KMeansFn)
    (hk : ∀ k seed ninit data, (kmeans k seed ninit data).length = data.length)
    (embeddings : List (List ℝ)) (n_clusters : ℕ) :
    (cluster_embeddings kmeans embeddings n_clusters).length = embeddings.length ∧
    cluster_embeddings kmeans embeddings n_clusters
        = kmeans (min n_clusters embeddings.length) 42 10 embeddings ∧
    (embeddings.length < n_clusters →
      cluster_embeddings kmeans embeddings n_clusters
        = kmeans embeddings.length 42 10 embeddings) := by
  unfold cluster_embeddings
  have hmin : (if embeddings.length < n_clusters then embeddings.length else n_clusters)
      = min n_clusters embeddings.length := by
    split <;> omega
  refine ⟨hk _ _ _ _, by rw [hmin], fun h => ?_⟩
  rw [hmin, min_eq_right (le_of_lt h)]

def rangeKMeans : KMeansFn := fun _ _ _ data => List.range data.length

theorem cluster_embeddings_spec_witness :
    (cluster_embeddings rangeKMeans [[(1 : ℝ)], [2], [3]] 5).length = 3 ∧
    cluster_embeddings rangeKMeans [[(1 : ℝ)], [2], [3]] 5
        = rangeKMeans 3 42 10 [[(1 : ℝ)], [2], [3]] := by
  have h := cluster_embeddings_spec rangeKMeans
      (fun _ _ _ d => List.length_range d.length) [[(1 : ℝ)], [2], [3]] 5
  exact ⟨h.1.trans (by decide), h.2.2 (by decide)⟩

theorem mem_countsOf_count_pos {l : List ℕ} {p : ℕ × ℕ} (hp : p ∈ countsOf l) :
    0 < l.count p.1 := by
  have h1 := lookup_eq_some_of_mem_nodup (countsOf_keys_nodup l) hp
  rw [countsOf_lookup] at h1
  by_cases h : l.count p.1 = 0
  · rw [if_pos h] at h1; cases h1
  · omega

/-- C9: `identify_semantic_clusters` runs clustering only when the sample
count strictly exceeds the target 5; otherwise it returns the explicit
successful "not enough data" value with `num_clusters = 0` and no clusters.
When clustering runs, every reported cluster carries its id (one of the
assignment labels), its size (the number of samples assigned to it), and up
to 5 representative members — a sublist of the commit corpus, hence taken in
original corpus order; and `identify_semantic_patterns` additionally reports
the dominant cluster id, whose member count bounds every reported cluster
size. -/
theorem identify_semantic_clusters_spec (kmeans : KMeansFn)
    (hk : ∀ k seed ninit data, (kmeans k seed ninit data).length = data.length)
    (data : List (String × List ℝ)) :
    (data.length ≤ 5 →
      identify_semantic_clusters kmeans data
        = ⟨data.length, 0, [], none, some "Not enough data for clustering"⟩) ∧
    (5 < data.length →
      ∀ c ∈ (identify_semantic_clusters kmeans data).clusters,
        c.cluster_id
            ∈ (identify_semantic_patterns kmeans (data.map Prod.snd) 5).cluster_assignments ∧
        c.size = ((identify_semantic_patterns kmeans
            (data.map Prod.snd) 5).cluster_assignments).count c.cluster_id ∧
        c.sample_commits.length = min 5 c.size ∧
        c.sample_commits.Sublist (data.map Prod.fst)) ∧
    (∀ d, (identify_semantic_patterns kmeans (data.map Prod.snd) 5).dominant_pattern
          = some d →
      d ∈ (identify_semantic_patterns kmeans (data.map Prod.snd) 5).cluster_assignments ∧
      ∀ p ∈ (identify_semantic_patterns kmeans (data.map Prod.snd) 5).cluster_sizes,
        p.2 ≤ ((identify_semantic_patterns kmeans
            (data.map Prod.snd) 5).cluster_assignments).count d) := by
  have hasg : (identify_semantic_patterns kmeans (data.map Prod.snd) 5).cluster_assignments
      = cluster_embeddings kmeans (data.map Prod.snd) 5 := rfl
  have hasg_len : ((identify_semantic_patterns kmeans
      (data.map Prod.snd) 5).cluster_assignments).length = data.length := by
    rw [hasg]
    unfold cluster_embeddings
    rw [hk, List.length_map]
  refine ⟨?_, ?_, ?_⟩
  · intro h5
    unfold identify_semantic_clusters
    rw [if_neg ?hne]
    case hne =>
      rw [List.length_map]
      omega
  · intro h5 c hc
    unfold identify_semantic_clusters at hc
    rw [if_pos (by rw [List.length_map]; exact h5)] at hc
    dsimp only at hc
    rcases List.mem_map.mp hc with ⟨cid, hcid, hceq⟩
    have hmem_asg : cid ∈ (identify_semantic_patterns kmeans
        (data.map Prod.snd) 5).cluster_assignments := List.mem_dedup.mp hcid
    have hcommits_len : (data.map Prod.fst).length
        = ((identify_semantic_patterns kmeans
            (data.map Prod.snd) 5).cluster_assignments).length := by
      rw [List.length_map, hasg_len]
    subst hceq
    refine ⟨hmem_asg, ?_, ?_, ?_⟩
    · dsimp only
      rw [List.length_map]
      exact zip_filter_count _ _ _ hcommits_len
    · dsimp only
      rw [List.length_take]
    · dsimp only
      have h1 : (((data.map Prod.fst).zip ((identify_semantic_patterns kmeans
            (data.map Prod.snd) 5).cluster_assignments)).filter
            (fun p => p.2 == cid)).Sublist
          ((data.map Prod.fst).zip ((identify_semantic_patterns kmeans
            (data.map Prod.snd) 5).cluster_assignments)) := List.filter_sublist _
      have h2 := List.Sublist.map Prod.fst h1
      rw [List.map_fst_zip _ _ (le_of_eq hcommits_len)] at h2
      exact List.Sublist.trans
        (List.Sublist.trans (List.take_sublist 5 _) (List.Sublist.refl _)) h2
  · intro d hd
    have hd' : dominantKey (countsOf ((identify_semantic_patterns kmeans
        (data.map Prod.snd) 5).cluster_assignments)) = some d := hd
    obtain ⟨q, hqmem, hqd, hqmax⟩ := dominantKey_spec hd'
    have hqc := mem_countsOf_eq_count hqmem
    have hqpos := mem_countsOf_count_pos hqmem
    constructor
    · rw [← hqd]
      exact List.count_pos_iff.mp hqpos
    · intro p hp
      have hple := hqmax p hp
      rw [hqc, hqd] at hple
      exact hple

def zeroKMeans : KMeansFn := fun _ _ _ d => d.map (fun _ => 0)

theorem identify_semantic_clusters_spec_witness :
    identify_semantic_clusters zeroKMeans [("a", [1]), ("b", [1]), ("c", [1])]
      = ⟨3, 0, [], none, some "Not enough data for clustering"⟩ :=
  (identify_semantic_clusters_spec zeroKMeans
      (fun _ _ _ d => List.length_map d _) [("a", [1]), ("b", [1]), ("c", [1])]).1
    (by decide)
